import Mathlib

/-!
Shallow embedding of `src/naive.rs` (crate `quadrs`): a dimension-parametric
spatial tree `DNode` with three variants and a single mutating operation
`insert`, plus the `Vectorial` capability and its `DefaultVector`
implementation.

Modelling conventions:
* Rust's in-place mutation `insert(&mut self, n)` becomes a function returning
  the new value of `self`; the `panic!` on a non-`Leaf` argument becomes
  `Option.none` (the panic fires in the outermost `match n` before `self` is
  touched, so no partial mutation can be observed).
* The const generic `D` (length of a `Node`'s `childs` array) becomes an
  explicit `Nat` argument of `insert`; the `childs` array becomes a `List`.
* `f64` coordinates become `ℚ`: the code applies only `min`, `max` and `<=`
  to coordinates (no arithmetic), and on these `f64` restricted to non-NaN
  values agrees with a linear order.
-/

namespace Quadrs

/-- The `Vectorial` trait from `naive.rs`, restricted to the one method the
tree uses: `fn within(&self, _: (Self, Self)) -> bool`.  (The trait also
requires `Add` and `Mul<f64>`, which `insert` never calls.) -/
class Vectorial (T : Type) where
  within : T → T × T → Bool

/-- `pub struct DefaultVector<const N: usize>([f64; N]);` -/
structure DefaultVector (N : Nat) where
  coords : Fin N → ℚ

/-- `impl Add for DefaultVector<N>`: component-wise sum. -/
def DefaultVector.add {N : Nat} (a b : DefaultVector N) : DefaultVector N :=
  ⟨fun i => a.coords i + b.coords i⟩

/-- `impl Mul<f64> for DefaultVector<N>`: component-wise scaling. -/
def DefaultVector.mul {N : Nat} (a : DefaultVector N) (k : ℚ) : DefaultVector N :=
  ⟨fun i => a.coords i * k⟩

/-- `impl Vectorial for DefaultVector<N>`: the loop
`for i in 0..N { if !(area.0.0[i].min(area.1.0[i]) <= self.0[i] && self.0[i] <= area.0.0[i].max(area.1.0[i])) { return false } } true`. -/
instance {N : Nat} : Vectorial (DefaultVector N) where
  within p area :=
    (List.finRange N).all fun i =>
      decide (min (area.1.coords i) (area.2.coords i) ≤ p.coords i) &&
      decide (p.coords i ≤ max (area.1.coords i) (area.2.coords i))

/-- `enum DNode<const D: usize, T: Vectorial, U, V>`: the three node variants.
Rust's `None` / `Node` / `Leaf` become `none` / `node` / `leaf`; the
fixed-size `childs: [Box<Self>; D]` array becomes a `List` (the length `D` is
data, supplied to `insert`). -/
inductive DNode (T U V : Type) : Type where
  | none : DNode T U V
  | node (area : T × T) (metadata : U) (data : V) (childs : List (DNode T U V)) : DNode T U V
  | leaf (area : T × T) (position : T) (metadata : U) (data : V) : DNode T U V

variable {T U V : Type}

/-- `true` exactly on the `Leaf` variant. -/
def DNode.isLeaf : DNode T U V → Bool
  | DNode.leaf _ _ _ _ => true
  | _ => false

/-- `true` exactly on the `Node` (branching) variant. -/
def DNode.isNode : DNode T U V → Bool
  | DNode.node _ _ _ _ => true
  | _ => false

/-- Accessor: the `area` field of a `Leaf` or `Node`, absent on `None`. -/
def DNode.areaOf : DNode T U V → Option (T × T)
  | DNode.none => Option.none
  | DNode.node a _ _ _ => Option.some a
  | DNode.leaf a _ _ _ => Option.some a

/-- Accessor: the `childs` array of a `Node`, `[]` otherwise. -/
def DNode.childsOf : DNode T U V → List (DNode T U V)
  | DNode.node _ _ _ cs => cs
  | _ => []

section InsertDef

variable [Vectorial T]

mutual

/-- The body of `DNode::insert` after the outer `match n` has succeeded on
`DNode::Leaf { position: n_position, .. }`: `npos` is `n_position`, `n` the
whole argument leaf, and the match on `self` follows `naive.rs` lines 69-110:
* `self = None`: `*self = n.clone()`;
* `self = Node { childs, .. }`: each child is rewritten in place by
  [Quadrs.insertChilds] (iteration order is array order, and the in-place
  `for` loop touches every child independently, so it is a map);
* `self = Leaf`: promotion — `*self` becomes a `Node` with the old leaf's
  `area`, cloned `metadata` and `data`, child `0` a clone of the old leaf and
  every other child `None` (`std::array::from_fn(|i| match i { 0 => ..., _ => None })`). -/
def insertLeaf (D : Nat) (npos : T) (n : DNode T U V) : DNode T U V → DNode T U V
  | DNode.none => n
  | DNode.node area md dt cs => DNode.node area md dt (insertChilds D npos n cs)
  | DNode.leaf area pos md dt =>
      DNode.node area md dt
        (List.ofFn fun i : Fin D =>
          if (i : Nat) = 0 then DNode.leaf area pos md dt else DNode.none)

/-- The `for c in self_childs` loop of `DNode::insert`: a `None` child is
skipped (`continue`), and a `Leaf`/`Node` child whose `area` contains
`n_position` receives the recursive `c.insert(n)`; there is no `break`, so
every matching child is visited. -/
def insertChilds (D : Nat) (npos : T) (n : DNode T U V) : List (DNode T U V) → List (DNode T U V)
  | [] => []
  | c :: cs =>
      (match c with
       | DNode.none => DNode.none
       | DNode.leaf ca p m v =>
           if Vectorial.within npos ca then insertLeaf D npos n (DNode.leaf ca p m v)
           else DNode.leaf ca p m v
       | DNode.node ca m v cc =>
           if Vectorial.within npos ca then insertLeaf D npos n (DNode.node ca m v cc)
           else DNode.node ca m v cc) :: insertChilds D npos n cs

end

/-- `pub fn insert(&mut self, n: &DNode<D, T, U, V>)`: the outer `match n`.
A non-`Leaf` argument hits
`_ => panic!("Trying to insert either DNode::None or DNode::Node.")`,
modelled as `Option.none`; the panic precedes any mutation of `self`. -/
def DNode.insert (D : Nat) (self n : DNode T U V) : Option (DNode T U V) :=
  match n with
  | DNode.leaf _ npos _ _ => Option.some (insertLeaf D npos n self)
  | _ => Option.none

/-- A sequence of `insert` calls, folded over the tree; a call that panics
(non-`Leaf` argument) leaves the tree as it was. -/
def insertAll (D : Nat) : DNode T U V → List (DNode T U V) → DNode T U V
  | t, [] => t
  | t, x :: xs => insertAll D ((DNode.insert D t x).getD t) xs

end InsertDef

mutual

/-- Number of `Leaf` nodes in a tree (the test's `count_leaves`). -/
def leafCount : DNode T U V → Nat
  | DNode.none => 0
  | DNode.leaf _ _ _ _ => 1
  | DNode.node _ _ _ cs => leafCountList cs

/-- Total `Leaf` count of a list of trees. -/
def leafCountList : List (DNode T U V) → Nat
  | [] => 0
  | c :: cs => leafCount c + leafCountList cs

end

mutual

/-- The positions stored at the `Leaf` nodes of a tree, in preorder. -/
def leafPositions : DNode T U V → List T
  | DNode.none => []
  | DNode.leaf _ p _ _ => [p]
  | DNode.node _ _ _ cs => leafPositionsList cs

/-- Concatenated leaf positions of a list of trees. -/
def leafPositionsList : List (DNode T U V) → List T
  | [] => []
  | c :: cs => leafPositions c ++ leafPositionsList cs

end

mutual

/-- The per-node variant evolution insert is allowed to perform
(`Empty → Leaf → Branching`, never backwards): an `Empty` node may stay
`Empty` or become a `Leaf`; a `Leaf` may stay a `Leaf` or become `Branching`;
a `Branching` node stays `Branching` and each child evolves the same way. -/
def grows : DNode T U V → DNode T U V → Prop
  | DNode.none, t => t = DNode.none ∨ t.isLeaf = true
  | DNode.leaf _ _ _ _, t => t.isLeaf = true ∨ t.isNode = true
  | DNode.node _ _ _ cs, t =>
      match t with
      | DNode.node _ _ _ cs' => growsList cs cs'
      | _ => False

/-- Pointwise [Quadrs.grows] on child lists of equal length. -/
def growsList : List (DNode T U V) → List (DNode T U V) → Prop
  | [], [] => True
  | c :: cs, c' :: cs' => grows c c' ∧ growsList cs cs'
  | _, _ => False

end

section Wf

variable [Vectorial T]

mutual

/-- Every `Leaf` in the tree satisfies the containment predicate against its
own stored `area` (the test's `check_leaf_areas`). -/
def leavesWf : DNode T U V → Bool
  | DNode.none => true
  | DNode.leaf area pos _ _ => Vectorial.within pos area
  | DNode.node _ _ _ cs => leavesWfList cs

/-- [Quadrs.leavesWf] over a list of trees. -/
def leavesWfList : List (DNode T U V) → Bool
  | [] => true
  | c :: cs => leavesWf c && leavesWfList cs

end

end Wf

/-! ### Helper lemmas -/

/-- Unfolding of `within` for `DefaultVector`: true iff every axis passes the
per-axis min/max interval check. -/
theorem within_eq_true_iff {N : Nat} (p a b : DefaultVector N) :
    Vectorial.within p (a, b) = true ↔
      ∀ i : Fin N,
        min (a.coords i) (b.coords i) ≤ p.coords i ∧
        p.coords i ≤ max (a.coords i) (b.coords i) := by
  simp [Vectorial.within, List.all_eq_true, List.mem_finRange]

/-- Shape of the promotion `childs` array when `D = k + 1`: the old leaf in
slot `0` followed by `k` `None`s. -/
theorem promotionChilds_eq (k : Nat) (x y : DNode T U V) :
    (List.ofFn fun i : Fin (k + 1) => if (i : Nat) = 0 then x else y)
      = x :: List.replicate k y := by
  rw [List.ofFn_succ]
  simp

/-- `replicate`d `None` children hold no leaves. -/
theorem leafCountList_replicate_none (k : Nat) :
    leafCountList (List.replicate k (DNode.none : DNode T U V)) = 0 := by
  induction k with
  | zero => rfl
  | succ k ih => simpa [List.replicate_succ, leafCountList, leafCount] using ih

/-- `replicate`d `None` children hold no positions. -/
theorem leafPositionsList_replicate_none (k : Nat) :
    leafPositionsList (List.replicate k (DNode.none : DNode T U V)) = [] := by
  induction k with
  | zero => rfl
  | succ k ih => simpa [List.replicate_succ, leafPositionsList, leafPositions] using ih

/-- `replicate`d `None` children are trivially well-formed. -/
theorem leavesWfList_replicate_none [Vectorial T] (k : Nat) :
    leavesWfList (List.replicate k (DNode.none : DNode T U V)) = true := by
  induction k with
  | zero => rfl
  | succ k ih => simpa [List.replicate_succ, leavesWfList, leavesWf] using ih

/-- Inserting a `Leaf` never produces the `None` variant. -/
theorem insertLeaf_ne_none [Vectorial T] (D : Nat) (npos : T)
    (na : T × T) (np : T) (nm : U) (nd : V) :
    ∀ c : DNode T U V,
      insertLeaf D npos (DNode.leaf na np nm nd) c ≠ DNode.none
  | DNode.none => by simp [insertLeaf]
  | DNode.leaf _ _ _ _ => by simp [insertLeaf]
  | DNode.node _ _ _ _ => by simp [insertLeaf]

mutual

/-- Inserting into a tree that is not `None` never increases the number of
stored leaves: promotion keeps (or, when `D = 0`, drops) the single old leaf,
and descent only rewrites existing children. -/
theorem leafCount_insertLeaf_le [Vectorial T] (D : Nat) (npos : T) (n : DNode T U V) :
    ∀ c : DNode T U V, c ≠ DNode.none →
      leafCount (insertLeaf D npos n c) ≤ leafCount c
  | DNode.none, h => absurd rfl h
  | DNode.leaf a p m d, _ => by
      cases D with
      | zero => simp [insertLeaf, leafCount, leafCountList]
      | succ k =>
          simp [insertLeaf, leafCount, promotionChilds_eq, leafCountList,
            leafCountList_replicate_none]
  | DNode.node a m d cs, _ => by
      simpa [insertLeaf, leafCount] using leafCountList_insertChilds_le D npos n cs

/-- List version of [Quadrs.leafCount_insertLeaf_le] for the child loop. -/
theorem leafCountList_insertChilds_le [Vectorial T] (D : Nat) (npos : T) (n : DNode T U V) :
    ∀ cs : List (DNode T U V),
      leafCountList (insertChilds D npos n cs) ≤ leafCountList cs
  | [] => Nat.le_refl _
  | c :: cs => by
      have htail := leafCountList_insertChilds_le D npos n cs
      cases c with
      | none =>
          simp only [insertChilds, leafCountList, leafCount]
          exact Nat.add_le_add (Nat.le_refl 0) htail
      | leaf ca p m v =>
          have hhead := leafCount_insertLeaf_le D npos n (DNode.leaf ca p m v) (by simp)
          by_cases hw : Vectorial.within npos ca
          · simp only [insertChilds, leafCountList, hw, if_true]
            exact Nat.add_le_add hhead htail
          · simp only [insertChilds, leafCountList, hw, if_false]
            exact Nat.add_le_add (Nat.le_refl _) htail
      | node ca m v cc =>
          have hhead := leafCount_insertLeaf_le D npos n (DNode.node ca m v cc) (by simp)
          by_cases hw : Vectorial.within npos ca
          · simp only [insertChilds, leafCountList, hw, if_true]
            exact Nat.add_le_add hhead htail
          · simp only [insertChilds, leafCountList, hw, if_false]
            exact Nat.add_le_add (Nat.le_refl _) htail

end

mutual

/-- Inserting into a tree that is not `None` stores no new position: every
position held after the call was held before it. -/
theorem leafPositions_insertLeaf_subset [Vectorial T] (D : Nat) (npos : T) (n : DNode T U V) :
    ∀ c : DNode T U V, c ≠ DNode.none →
      leafPositions (insertLeaf D npos n c) ⊆ leafPositions c
  | DNode.none, h => absurd rfl h
  | DNode.leaf a p m d, _ => by
      cases D with
      | zero => simp [insertLeaf, leafPositions, leafPositionsList]
      | succ k =>
          simp [insertLeaf, leafPositions, promotionChilds_eq, leafPositionsList,
            leafPositionsList_replicate_none]
  | DNode.node a m d cs, _ => by
      simpa [insertLeaf, leafPositions] using
        leafPositionsList_insertChilds_subset D npos n cs

/-- List version of [Quadrs.leafPositions_insertLeaf_subset]. -/
theorem leafPositionsList_insertChilds_subset [Vectorial T] (D : Nat) (npos : T)
    (n : DNode T U V) :
    ∀ cs : List (DNode T U V),
      leafPositionsList (insertChilds D npos n cs) ⊆ leafPositionsList cs
  | [] => List.Subset.refl _
  | c :: cs => by
      have htail := leafPositionsList_insertChilds_subset D npos n cs
      have htail' : leafPositionsList (insertChilds D npos n cs)
          ⊆ leafPositions c ++ leafPositionsList cs :=
        htail.trans (List.subset_append_right _ _)
      cases c with
      | none =>
          simp only [insertChilds, leafPositionsList, leafPositions, List.nil_append]
          exact htail'
      | leaf ca p m v =>
          have hhead :=
            leafPositions_insertLeaf_subset D npos n (DNode.leaf ca p m v) (by simp)
          by_cases hw : Vectorial.within npos ca
          · simp only [insertChilds, leafPositionsList, hw, if_true]
            exact List.append_subset.mpr
              ⟨hhead.trans (List.subset_append_left _ _), htail'⟩
          · simp only [insertChilds, leafPositionsList, hw, if_false]
            exact List.append_subset.mpr ⟨List.subset_append_left _ _, htail'⟩
      | node ca m v cc =>
          have hhead :=
            leafPositions_insertLeaf_subset D npos n (DNode.node ca m v cc) (by simp)
          by_cases hw : Vectorial.within npos ca
          · simp only [insertChilds, leafPositionsList, hw, if_true]
            exact List.append_subset.mpr
              ⟨hhead.trans (List.subset_append_left _ _), htail'⟩
          · simp only [insertChilds, leafPositionsList, hw, if_false]
            exact List.append_subset.mpr ⟨List.subset_append_left _ _, htail'⟩

end

mutual

/-- Variant evolution is reflexive: leaving a node unchanged is allowed. -/
theorem grows_refl : ∀ t : DNode T U V, grows t t
  | DNode.none => Or.inl rfl
  | DNode.leaf _ _ _ _ => Or.inl rfl
  | DNode.node _ _ _ cs => growsList_refl cs

/-- Reflexivity of [Quadrs.growsList]. -/
theorem growsList_refl : ∀ cs : List (DNode T U V), growsList cs cs
  | [] => trivial
  | c :: cs => ⟨grows_refl c, growsList_refl cs⟩

end

mutual

/-- One insertion of a `Leaf` argument only moves each existing node forward
along `Empty → Leaf → Branching`. -/
theorem grows_insertLeaf [Vectorial T] (D : Nat) (npos : T)
    (na : T × T) (np : T) (nm : U) (nd : V) :
    ∀ c : DNode T U V, grows c (insertLeaf D npos (DNode.leaf na np nm nd) c)
  | DNode.none => Or.inr rfl
  | DNode.leaf _ _ _ _ => Or.inr rfl
  | DNode.node _ _ _ cs => growsList_insertChilds D npos na np nm nd cs
termination_by c => sizeOf c

/-- List version of [Quadrs.grows_insertLeaf] for the child loop. -/
theorem growsList_insertChilds [Vectorial T] (D : Nat) (npos : T)
    (na : T × T) (np : T) (nm : U) (nd : V) :
    ∀ cs : List (DNode T U V),
      growsList cs (insertChilds D npos (DNode.leaf na np nm nd) cs)
  | [] => trivial
  | c :: cs => by
      have htail := growsList_insertChilds D npos na np nm nd cs
      cases c with
      | none =>
          simp only [insertChilds, growsList]
          exact ⟨Or.inl rfl, htail⟩
      | leaf ca p m v =>
          have hhead := grows_insertLeaf D npos na np nm nd (DNode.leaf ca p m v)
          have hrefl := grows_refl (DNode.leaf ca p m v)
          by_cases hw : Vectorial.within npos ca
          · simp only [insertChilds, growsList, hw, if_true]
            exact ⟨hhead, htail⟩
          · simp only [insertChilds, growsList, hw, if_false]
            exact ⟨hrefl, htail⟩
      | node ca m v cc =>
          have hhead := grows_insertLeaf D npos na np nm nd (DNode.node ca m v cc)
          have hrefl := grows_refl (DNode.node ca m v cc)
          by_cases hw : Vectorial.within npos ca
          · simp only [insertChilds, growsList, hw, if_true]
            exact ⟨hhead, htail⟩
          · simp only [insertChilds, growsList, hw, if_false]
            exact ⟨hrefl, htail⟩
termination_by cs => sizeOf cs

end

mutual

/-- Inserting a well-formed leaf into a tree all of whose leaves are
well-formed keeps every leaf well-formed. -/
theorem leavesWf_insertLeaf [Vectorial T] (D : Nat) (npos : T) (n : DNode T U V)
    (hn : leavesWf n = true) :
    ∀ c : DNode T U V, leavesWf c = true →
      leavesWf (insertLeaf D npos n c) = true
  | DNode.none, _ => by simpa [insertLeaf] using hn
  | DNode.leaf a p m d, hc => by
      cases D with
      | zero => simp [insertLeaf, leavesWf, leavesWfList]
      | succ k =>
          simp only [insertLeaf, leavesWf, promotionChilds_eq, leavesWfList,
            leavesWfList_replicate_none, Bool.and_true]
          simpa [leavesWf] using hc
  | DNode.node a m d cs, hc => by
      simp only [insertLeaf, leavesWf] at hc ⊢
      exact leavesWfList_insertChilds D npos n hn cs hc

/-- List version of [Quadrs.leavesWf_insertLeaf] for the child loop. -/
theorem leavesWfList_insertChilds [Vectorial T] (D : Nat) (npos : T) (n : DNode T U V)
    (hn : leavesWf n = true) :
    ∀ cs : List (DNode T U V), leavesWfList cs = true →
      leavesWfList (insertChilds D npos n cs) = true
  | [], _ => rfl
  | c :: cs, hcs => by
      simp only [leavesWfList, Bool.and_eq_true] at hcs
      have htail := leavesWfList_insertChilds D npos n hn cs hcs.2
      cases c with
      | none => simpa [insertChilds, leavesWfList, leavesWf] using htail
      | leaf ca p m v =>
          have hhead := leavesWf_insertLeaf D npos n hn (DNode.leaf ca p m v) hcs.1
          by_cases hw : Vectorial.within npos ca
          · simp only [insertChilds, leavesWfList, hw, if_true, Bool.and_eq_true]
            exact ⟨hhead, htail⟩
          · simp only [insertChilds, leavesWfList, hw, if_false, Bool.and_eq_true]
            exact ⟨hcs.1, htail⟩
      | node ca m v cc =>
          have hhead := leavesWf_insertLeaf D npos n hn (DNode.node ca m v cc) hcs.1
          by_cases hw : Vectorial.within npos ca
          · simp only [insertChilds, leavesWfList, hw, if_true, Bool.and_eq_true]
            exact ⟨hhead, htail⟩
          · simp only [insertChilds, leavesWfList, hw, if_false, Bool.and_eq_true]
            exact ⟨hcs.1, htail⟩

end

/-- The child loop does not change the number of children. -/
theorem insertChilds_length [Vectorial T] (D : Nat) (npos : T) (n : DNode T U V) :
    ∀ cs : List (DNode T U V), (insertChilds D npos n cs).length = cs.length
  | [] => rfl
  | c :: cs => by
      simp only [insertChilds, List.length_cons, insertChilds_length D npos n cs]

/-- Elementwise description of the child loop: a child whose area contains the
inserted position is replaced by the recursive insertion into it. -/
theorem insertChilds_get [Vectorial T] (D : Nat) (npos : T) (n : DNode T U V) :
    ∀ (cs : List (DNode T U V)) (i : Nat) (c : DNode T U V) (ca : T × T),
      cs.get? i = some c → c.areaOf = some ca → Vectorial.within npos ca = true →
      (insertChilds D npos n cs).get? i = some (insertLeaf D npos n c)
  | [], i, c, ca, hc, _, _ => by simp at hc
  | c0 :: cs, 0, c, ca, hc, hca, hw => by
      have hc0 : c0 = c := by simpa using hc
      subst hc0
      cases c0 with
      | none => simp [DNode.areaOf] at hca
      | leaf ca' p m v =>
          have hca' : ca' = ca := by simpa [DNode.areaOf] using hca
          subst hca'
          simp [insertChilds, hw]
      | node ca' m v cc =>
          have hca' : ca' = ca := by simpa [DNode.areaOf] using hca
          subst hca'
          simp [insertChilds, hw]
  | c0 :: cs, i + 1, c, ca, hc, hca, hw => by
      simp only [List.get?] at hc
      simp only [insertChilds, List.get?]
      exact insertChilds_get D npos n cs i c ca hc hca hw

/-- Folding a list of `Leaf` insertions over a tree that is not `None` keeps
it non-`None`, never increases the leaf count, and stores no new position. -/
theorem insertAll_preserves [Vectorial T] (D : Nat) :
    ∀ (ls : List (DNode T U V)) (t : DNode T U V),
      (∀ x ∈ ls, x.isLeaf = true) → t ≠ DNode.none →
      insertAll D t ls ≠ DNode.none ∧
      leafCount (insertAll D t ls) ≤ leafCount t ∧
      leafPositions (insertAll D t ls) ⊆ leafPositions t
  | [], t, _, ht => ⟨ht, Nat.le_refl _, List.Subset.refl _⟩
  | x :: ls, t, h, ht => by
      have hx := h x (List.mem_cons_self x ls)
      cases x with
      | none => simp [DNode.isLeaf] at hx
      | node _ _ _ _ => simp [DNode.isLeaf] at hx
      | leaf na np nm nd =>
          have hstep : (DNode.insert D t (DNode.leaf na np nm nd)).getD t
              = insertLeaf D np (DNode.leaf na np nm nd) t := by
            simp [DNode.insert]
          have hne := insertLeaf_ne_none D np na np nm nd t
          have hcount := leafCount_insertLeaf_le D np (DNode.leaf na np nm nd) t ht
          have hsub := leafPositions_insertLeaf_subset D np (DNode.leaf na np nm nd) t ht
          have ih := insertAll_preserves D ls (insertLeaf D np (DNode.leaf na np nm nd) t)
            (fun y hy => h y (List.mem_cons_of_mem _ hy)) hne
          simp only [insertAll, hstep]
          exact ⟨ih.1, ih.2.1.trans hcount, ih.2.2.trans hsub⟩

/-- Folding a list of well-formed `Leaf` insertions over a tree all of whose
leaves are well-formed keeps every leaf well-formed. -/
theorem insertAll_wf [Vectorial T] (D : Nat) :
    ∀ (ls : List (DNode T U V)) (t : DNode T U V),
      (∀ x ∈ ls, x.isLeaf = true ∧ leavesWf x = true) → leavesWf t = true →
      leavesWf (insertAll D t ls) = true
  | [], _, _, ht => ht
  | x :: ls, t, h, ht => by
      have hx := h x (List.mem_cons_self x ls)
      cases x with
      | none => simp [DNode.isLeaf] at hx
      | node _ _ _ _ => simp [DNode.isLeaf] at hx
      | leaf na np nm nd =>
          have hstep : (DNode.insert D t (DNode.leaf na np nm nd)).getD t
              = insertLeaf D np (DNode.leaf na np nm nd) t := by
            simp [DNode.insert]
          have hwf := leavesWf_insertLeaf D np (DNode.leaf na np nm nd) hx.2 t ht
          have ih := insertAll_wf D ls (insertLeaf D np (DNode.leaf na np nm nd) t)
            (fun y hy => h y (List.mem_cons_of_mem _ hy)) hwf
          simpa only [insertAll, hstep] using ih

/-! ### Concrete values used by the witnesses -/

/-- Concrete one-dimensional rational vector, used by the witnesses. -/
def cvec (x : ℚ) : DefaultVector 1 := ⟨fun _ => x⟩

/-! ### Claim theorems -/

/-- C2: calling `insert` on an `Empty` (`None`) node with a `Leaf` argument
replaces the node by a copy of that leaf — position, region, metadata and
payload all equal the argument's — with no recursion (the `None` arm of the
match returns at once). -/
theorem insert_into_empty [Vectorial T] (D : Nat) (na : T × T) (np : T) (nm : U) (nd : V) :
    DNode.insert D (DNode.none : DNode T U V) (DNode.leaf na np nm nd)
      = Option.some (DNode.leaf na np nm nd) := rfl

/-- C1: inserting a `Leaf` into a `Leaf` promotes it: the result is a
`Branching` node with the old leaf's region, metadata and payload, child `0`
a copy of the pre-promotion leaf and children `1..D-1` `Empty`; the new
point `np` appears nowhere in the result (it holds exactly the old position
`p`), so the promotion does not insert the new point.  Stated for `D = k+1`
(the claim speaks of child `0`, so `D ≥ 1`). -/
theorem insert_promotes_leaf [Vectorial T] (k : Nat) (a : T × T) (p : T) (m : U) (d : V)
    (na : T × T) (np : T) (nm : U) (nd : V) :
    DNode.insert (k + 1) (DNode.leaf a p m d) (DNode.leaf na np nm nd)
      = Option.some (DNode.node a m d
          (DNode.leaf a p m d :: List.replicate k DNode.none)) ∧
    leafPositions ((DNode.insert (k + 1) (DNode.leaf a p m d)
        (DNode.leaf na np nm nd)).getD DNode.none) = [p] := by
  constructor
  · simp [DNode.insert, insertLeaf, promotionChilds_eq]
  · simp [DNode.insert, insertLeaf, promotionChilds_eq, leafPositions,
      leafPositionsList, leafPositionsList_replicate_none]

/-- C5: `within` on `DefaultVector` is true iff every axis `i` satisfies
`min (a i) (b i) ≤ p i ≤ max (a i) (b i)`; in particular it is false as soon
as one axis fails, and being a total `Bool`-valued function it has no error
cases or side effects. -/
theorem within_characterization {N : Nat} (p a b : DefaultVector N) :
    Vectorial.within p (a, b) = true ↔
      ∀ i : Fin N,
        min (a.coords i) (b.coords i) ≤ p.coords i ∧
        p.coords i ≤ max (a.coords i) (b.coords i) :=
  within_eq_true_iff p a b

/-- C6: `insert` panics (modelled as `Option.none`) exactly when its second
argument is `None` or `Node` rather than `Leaf`; the panic fires in the outer
`match n` before `self` is inspected or rewritten, so the tree keeps its
prior value, and a `Leaf` argument never produces a failure, whatever the
tree state `self` is. -/
theorem insert_panics_iff_not_leaf [Vectorial T] (D : Nat) (self n : DNode T U V) :
    DNode.insert D self n = Option.none ↔ n.isLeaf = false := by
  cases n <;> simp [DNode.insert, DNode.isLeaf]

/-- C10: `insert` on a `Branching` node returns a `Branching` node with the
same region, metadata and payload; only the children array is rewritten, and
even its length is unchanged. -/
theorem insert_preserves_node_fields [Vectorial T] (D : Nat) (a : T × T) (m : U) (d : V)
    (cs : List (DNode T U V)) (na : T × T) (np : T) (nm : U) (nd : V) :
    ∃ cs' : List (DNode T U V),
      DNode.insert D (DNode.node a m d cs) (DNode.leaf na np nm nd)
        = Option.some (DNode.node a m d cs') ∧ cs'.length = cs.length :=
  ⟨insertChilds D np (DNode.leaf na np nm nd) cs, rfl,
    insertChilds_length D np (DNode.leaf na np nm nd) cs⟩

/-- C9: the containment test does not depend on the order of the two corner
points, and it is false whenever some axis of `p` lies strictly outside the
per-axis min/max interval of the region. -/
theorem within_corner_order_independent {N : Nat} (p lo hi : DefaultVector N) :
    Vectorial.within p (lo, hi) = Vectorial.within p (hi, lo) ∧
    ∀ i : Fin N,
      (p.coords i < min (lo.coords i) (hi.coords i) ∨
       max (lo.coords i) (hi.coords i) < p.coords i) →
      Vectorial.within p (lo, hi) = false := by
  have hiff : Vectorial.within p (lo, hi) = true ↔ Vectorial.within p (hi, lo) = true := by
    rw [within_eq_true_iff, within_eq_true_iff]
    constructor <;> intro h i <;>
      exact ⟨by rw [min_comm]; exact (h i).1, by rw [max_comm]; exact (h i).2⟩
  constructor
  · cases ha : Vectorial.within p (lo, hi) with
    | false =>
        cases hb : Vectorial.within p (hi, lo) with
        | false => rfl
        | true => exact absurd (hiff.mpr hb) (by simp [ha])
    | true => exact (hiff.mp ha).symm
  · intro i hfail
    cases ha : Vectorial.within p (lo, hi) with
    | false => rfl
    | true =>
        exfalso
        obtain ⟨h1, h2⟩ := (within_eq_true_iff p lo hi).mp ha i
        rcases hfail with h | h
        · exact absurd h1 (not_le.mpr h)
        · exact absurd h2 (not_le.mpr h)

/-- Witness for C9: the point `5` lies strictly above the interval `[0, 1]`,
so `within` rejects it. -/
theorem within_outside_axis_witness :
    Vectorial.within (cvec 5) (cvec 0, cvec 1) = false :=
  (within_corner_order_independent (cvec 5) (cvec 0) (cvec 1)).2 0 (Or.inr (by decide))

/-- C7: a successful `insert` call only moves every pre-existing node forward
along `Empty → Leaf → Branching`: an `Empty` node stays `Empty` or becomes a
`Leaf`, a `Leaf` stays or becomes `Branching`, a `Branching` node stays
`Branching` with each child evolving the same way — nothing is deleted or
merged. -/
theorem insert_monotone_variant [Vectorial T] (D : Nat) (self n t : DNode T U V)
    (h : DNode.insert D self n = Option.some t) : grows self t := by
  cases n with
  | none => simp [DNode.insert] at h
  | node _ _ _ _ => simp [DNode.insert] at h
  | leaf na np nm nd =>
      have ht : insertLeaf D np (DNode.leaf na np nm nd) self = t := by
        simpa [DNode.insert] using h
      exact ht ▸ grows_insertLeaf D np na np nm nd self

/-- Witness for C7: a concrete promotion of a `Leaf` by a second point. -/
theorem insert_monotone_variant_witness :
    grows (DNode.leaf (cvec 0, cvec 1) (cvec 0) (0 : Nat) (0 : Nat))
      ((DNode.insert 2 (DNode.leaf (cvec 0, cvec 1) (cvec 0) 0 0)
          (DNode.leaf (cvec 0, cvec 1) (cvec 1) 0 0)).getD DNode.none) :=
  insert_monotone_variant 2 (DNode.leaf (cvec 0, cvec 1) (cvec 0) 0 0)
    (DNode.leaf (cvec 0, cvec 1) (cvec 1) 0 0)
    ((DNode.insert 2 (DNode.leaf (cvec 0, cvec 1) (cvec 0) 0 0)
        (DNode.leaf (cvec 0, cvec 1) (cvec 1) 0 0)).getD DNode.none) rfl

/-- C3: any finite sequence of `insert` calls with `Leaf` arguments, started
on an `Empty` root, yields a tree with at most one `Leaf`, and every stored
position already appears in the first inserted leaf: promotion keeps only the
pre-existing point, descent skips `Empty` children, so no later point is ever
stored. -/
theorem insert_sequence_at_most_one_leaf [Vectorial T] (D : Nat)
    (ls : List (DNode T U V)) (h : ∀ x ∈ ls, x.isLeaf = true) :
    leafCount (insertAll D DNode.none ls) ≤ 1 ∧
    leafPositions (insertAll D DNode.none ls) ⊆ leafPositions (ls.headD DNode.none) := by
  cases ls with
  | nil => exact ⟨by simp [insertAll, leafCount], by simp [insertAll]⟩
  | cons x ls =>
      have hx := h x (List.mem_cons_self x ls)
      cases x with
      | none => simp [DNode.isLeaf] at hx
      | node _ _ _ _ => simp [DNode.isLeaf] at hx
      | leaf na np nm nd =>
          have hfirst : insertAll D DNode.none (DNode.leaf na np nm nd :: ls)
              = insertAll D (DNode.leaf na np nm nd) ls := by
            simp [insertAll, DNode.insert, insertLeaf]
          have hpres := insertAll_preserves D ls (DNode.leaf na np nm nd)
            (fun y hy => h y (List.mem_cons_of_mem _ hy)) (by simp)
          rw [hfirst]
          exact ⟨by simpa [leafCount] using hpres.2.1,
            by simpa [List.headD] using hpres.2.2⟩

/-- Witness for C3: two concrete insertions into an empty root. -/
theorem insert_sequence_at_most_one_leaf_witness :
    leafCount (insertAll 2 DNode.none
        [DNode.leaf (cvec 0, cvec 2) (cvec 0) (0 : Nat) (0 : Nat),
         DNode.leaf (cvec 0, cvec 2) (cvec 1) 0 0]) ≤ 1 ∧
    leafPositions (insertAll 2 DNode.none
        [DNode.leaf (cvec 0, cvec 2) (cvec 0) (0 : Nat) (0 : Nat),
         DNode.leaf (cvec 0, cvec 2) (cvec 1) 0 0]) ⊆
      leafPositions (([DNode.leaf (cvec 0, cvec 2) (cvec 0) (0 : Nat) (0 : Nat),
         DNode.leaf (cvec 0, cvec 2) (cvec 1) 0 0]).headD DNode.none) :=
  insert_sequence_at_most_one_leaf 2 _ (by decide)

/-- C8: starting from an `Empty` root, if every inserted leaf is well-formed
(its position satisfies `within` against its own region) then after any
sequence of insertions every `Leaf` in the tree is well-formed. -/
theorem insert_sequence_leaves_wf [Vectorial T] (D : Nat)
    (ls : List (DNode T U V)) (h : ∀ x ∈ ls, x.isLeaf = true ∧ leavesWf x = true) :
    leavesWf (insertAll D DNode.none ls) = true :=
  insertAll_wf D ls DNode.none h rfl

/-- Witness for C8: three concrete well-formed insertions. -/
theorem insert_sequence_leaves_wf_witness :
    leavesWf (insertAll 2 DNode.none
        [DNode.leaf (cvec 0, cvec 3) (cvec 0) (0 : Nat) (0 : Nat),
         DNode.leaf (cvec 0, cvec 3) (cvec 2) 0 0,
         DNode.leaf (cvec 0, cvec 3) (cvec 1) 0 0]) = true :=
  insert_sequence_leaves_wf 2 _ (by decide)

/-- C4: on a `Branching` node, `insert` rewrites the children in array index
order, recursing into every child whose region contains the new position
(second conjunct) without stopping at the first match; concretely (third
conjunct), with two leaf children whose regions `[0,2]` and `[0,3]` both
contain the point `1`, one call promotes both children to `Branching`. -/
theorem insert_descends_all_matching_children [Vectorial T] (D : Nat) (a : T × T)
    (m : U) (d : V) (cs : List (DNode T U V)) (na : T × T) (np : T) (nm : U) (nd : V) :
    (DNode.insert D (DNode.node a m d cs) (DNode.leaf na np nm nd)
      = Option.some (DNode.node a m d (insertChilds D np (DNode.leaf na np nm nd) cs))) ∧
    (∀ (i : Nat) (c : DNode T U V) (ca : T × T),
      cs.get? i = some c → c.areaOf = some ca → Vectorial.within np ca = true →
      (insertChilds D np (DNode.leaf na np nm nd) cs).get? i
        = some (insertLeaf D np (DNode.leaf na np nm nd) c)) ∧
    ((DNode.insert 2 (DNode.node (cvec 0, cvec 3) 0 0
          [DNode.leaf (cvec 0, cvec 2) (cvec 0) 0 0,
           DNode.leaf (cvec 0, cvec 3) (cvec 2) 0 0])
        (DNode.leaf (cvec 0, cvec 3) (cvec 1) (0 : Nat) (0 : Nat))).getD
        DNode.none).childsOf.map DNode.isNode = [true, true] := by
  refine ⟨rfl, fun i c ca hc hca hw => insertChilds_get D np _ cs i c ca hc hca hw, ?_⟩
  decide

/-- Witness for C4: a child whose region `[0,2]` contains the point `1` is
replaced by the recursive insertion into it. -/
theorem insert_descends_all_matching_children_witness :
    (insertChilds 2 (cvec 1) (DNode.leaf (cvec 0, cvec 3) (cvec 1) (0 : Nat) (0 : Nat))
        [DNode.leaf (cvec 0, cvec 2) (cvec 0) 0 0]).get? 0
      = some (insertLeaf 2 (cvec 1) (DNode.leaf (cvec 0, cvec 3) (cvec 1) 0 0)
          (DNode.leaf (cvec 0, cvec 2) (cvec 0) 0 0)) :=
  (insert_descends_all_matching_children 2 (cvec 0, cvec 3) 0 0
      [DNode.leaf (cvec 0, cvec 2) (cvec 0) 0 0] (cvec 0, cvec 3) (cvec 1) 0 0).2.1
    0 (DNode.leaf (cvec 0, cvec 2) (cvec 0) 0 0) (cvec 0, cvec 2) rfl rfl (by decide)

end Quadrs
